import Mathlib

/-!
# docker-mirror (`main.go`): input parsing and concurrent mirroring

A shallow embedding of `src/main.go`.

* `parseInput` is the Go function of the same name.  `json.Unmarshal` belongs to the Go
  standard library, not to this repository; it is a parameter `unmarshal` that returns the
  decoded struct when Go returns a nil error and `none` when Go returns an error, so every
  result below holds for every decoder.  `strings.Split(_, ",")` and `strings.TrimSpace` are
  modelled after their documented behaviour; strings are sequences of Unicode characters
  (splitting a valid UTF-8 string at the byte `,` and at the character `,` is the same).
* `startup` is the sequential first part of `main` (lines 50-66): parse, limit check, client
  construction.
* `step` is the rest of `main` (lines 68-99) as an interleaving semantics: the main goroutine
  and one goroutine per launched task each take atomic steps, chosen by a schedule.  The mutex
  `mu`, the wait group `wg`, the slice `outputs` and a log of the calls made to the registry
  client package are explicit state.  The registry client is a function of the source and the
  platform: a call returns, and returns the same result whenever it is repeated.
* Printing to standard output and the rendering of the report (lines 101-117) are left out.
-/

namespace DockerMirror

/-! ## The Go `strings` functions used by `parseInput` -/

namespace strings

/-- Go `unicode.IsSpace`: the Unicode White_Space code points. -/
def isSpace (c : Char) : Bool :=
  let n := c.toNat
  (0x09 ≤ n && n ≤ 0x0D) || n == 0x20 || n == 0x85 || n == 0xA0 || n == 0x1680 ||
  (0x2000 ≤ n && n ≤ 0x200A) || n == 0x2028 || n == 0x2029 || n == 0x202F ||
  n == 0x205F || n == 0x3000

/-- Go `strings.TrimSpace`: all leading and all trailing white space removed. -/
def TrimSpace (s : String) : String :=
  ⟨((s.data.dropWhile isSpace).reverse.dropWhile isSpace).reverse⟩

/-- Scan for `Split`: `cur` holds, reversed, the characters read since the last separator. -/
def splitGo (sep : Char) : List Char → List Char → List String
  | [], cur => [⟨cur.reverse⟩]
  | c :: cs, cur =>
    if c = sep then ⟨cur.reverse⟩ :: splitGo sep cs [] else splitGo sep cs (c :: cur)

/-- Go `strings.Split(s, sep)` for a one-character separator: the substrings between the
separators, in order (a string without separator gives the one-element list of itself). -/
def Split (s : String) (sep : Char) : List String := splitGo sep s.data []

end strings

/-! ## `parseInput` -/

/-- The anonymous struct `hubMirrors` of `parseInput`. -/
structure HubMirrors where
  HubMirror : List String
  Platform : String
deriving DecidableEq, Repr

/-- The behaviour of `json.Unmarshal([]byte(input), &hubMirrors)` on the zero struct: `some` of
the decoded struct when the returned error is nil, `none` otherwise. -/
abbrev Unmarshal := String → Option HubMirrors

/-- Go `parseInput` (lines 26-45); the third component is the error (`none` is nil). -/
def parseInput (unmarshal : Unmarshal) (input : String) : String × List String × Option String :=
  match unmarshal input with
  | some hubMirrors => (hubMirrors.Platform, hubMirrors.HubMirror, none)
  | none =>
    let mirrors := (strings.Split input ',').map strings.TrimSpace
    if mirrors.length = 0 then ("", [], some "输入不能为空") else ("", mirrors, none)

/-! ## Words of the specification about the delimited path -/

/-- The string neither starts nor ends with a white-space character. -/
def NoSurroundingSpace (e : String) : Prop :=
  (∀ c, e.data.head? = some c → strings.isSpace c = false) ∧
  (∀ c, e.data.getLast? = some c → strings.isSpace c = false)

/-- The string `e` is `seg` with its leading and trailing white space removed. -/
def IsTrimOf (e seg : String) : Prop :=
  ∃ pre post : List Char, seg.data = pre ++ e.data ++ post ∧
    (∀ c ∈ pre, strings.isSpace c = true) ∧ (∀ c ∈ post, strings.isSpace c = true) ∧
    NoSurroundingSpace e

/-- The string is not empty and consists of white space only. -/
def WhitespaceOnly (e : String) : Prop :=
  e ≠ "" ∧ ∀ c ∈ e.data, strings.isSpace c = true

/-! ## `main`: flags, collaborators, panics -/

/-- The command-line flags (lines 17-24). -/
structure Flags where
  content : String
  maxContent : Int
  repository : String
  username : String
  password : String
  outputPath : String
deriving DecidableEq, Repr

/-- The value a Go `panic` is raised with: an `error`, or a string literal. -/
inductive PanicValue where
  | error (err : String)
  | message (text : String)
deriving DecidableEq, Repr

/-- The text of the panic at line 57. -/
def limitExceeded : PanicValue := .message "提交的原始镜像个数超出了最大限制"

/-- The text of the panic at line 98. -/
def noSuccessfulMirrors : PanicValue := .message "没有转换成功的镜像"

/-- A call made to the registry client package `pkg`. -/
inductive Event where
  | NewCli (repository username password : String)
  | PullTagPushImage (source platform : String)
deriving DecidableEq, Repr

/-- A registry client: `cli.PullTagPushImage(ctx, source, platform)` as a function of `source`
and `platform`, returning the output or the error. -/
abbrev Cli (α : Type) := String → String → Except String α

/-- The constructor `pkg.NewCli(ctx, repository, username, password, os.Stdout)`. -/
abbrev NewCliFn (α : Type) := String → String → String → Except String (Cli α)

/-- The result of the sequential first part of `main`. -/
inductive Startup (α : Type) where
  | panicked (log : List Event) (v : PanicValue)
  | ready (log : List Event) (platform : String) (mirrors : List String) (cli : Cli α)

/-- Lines 50-66 of `main`: parse the content flag, check the limit, construct the client.
The log lists the calls made to `pkg` so far. -/
def startup {α : Type} (unmarshal : Unmarshal) (newCli : NewCliFn α) (flags : Flags) :
    Startup α :=
  match parseInput unmarshal flags.content with
  | (_, _, some err) => .panicked [] (.error err)
  | (platform, mirrors, none) =>
    if (mirrors.length : Int) > flags.maxContent then .panicked [] limitExceeded
    else
      match newCli flags.repository flags.username flags.password with
      | .error err =>
        .panicked [.NewCli flags.repository flags.username flags.password] (.error err)
      | .ok cli =>
        .ready [.NewCli flags.repository flags.username flags.password] platform mirrors cli

/-! ## The goroutines of `main` -/

/-- Where a task goroutine (lines 80-92) stands. -/
inductive TaskPc (α : Type) where
  /-- launched by `go`, body not started -/
  | spawned
  /-- `cli.PullTagPushImage` is in progress -/
  | calling
  /-- the call returned an error (lines 84-87) -/
  | failed
  /-- the call returned `output` and a nil error; next is `mu.Lock()` -/
  | succeeded (output : α)
  /-- `mu.Lock()` returned; next is the append of line 91 -/
  | locked (output : α)
  /-- the append is done; next is the deferred `mu.Unlock()` -/
  | appended
  /-- `mu` is released; next is the deferred `wg.Done()` -/
  | unlocked
  /-- the goroutine has returned -/
  | done
deriving DecidableEq, Repr

/-- A launched task: the captured loop variable and the position in the body. -/
structure Task (α : Type) where
  source : String
  pc : TaskPc α
deriving DecidableEq, Repr

/-- Where the main goroutine stands from line 72 on. -/
inductive MainPc (α : Type) where
  /-- in the `for` loop of line 72, with the entries still to visit -/
  | loop (rest : List String)
  /-- at `wg.Wait()` (line 95) -/
  | wait
  /-- `wg.Wait()` has returned; next is the read of `outputs` at line 97 -/
  | joined
  /-- the process has panicked -/
  | panicked (v : PanicValue)
  /-- the emptiness check passed; the report is rendered from these outputs (lines 101-117) -/
  | report (outputs : List α)
deriving DecidableEq, Repr

/-- The shared state of the goroutines. -/
structure State (α : Type) where
  main : MainPc α
  tasks : List (Task α)
  /-- the mutex `mu`: the index of the task holding it -/
  mu : Option Nat
  /-- the counter of the wait group `wg` -/
  wg : Int
  outputs : List α
  log : List Event
deriving DecidableEq, Repr

/-- A goroutine: the main one, or the task launched as number `i`. -/
inductive Thread where
  | main
  | task (i : Nat)
deriving DecidableEq, Repr

/-- The state at line 71, before the loop. -/
def State.init {α : Type} (log : List Event) (mirrors : List String) : State α :=
  { main := .loop mirrors, tasks := [], mu := none, wg := 0, outputs := [], log := log }

/-- The state of a process that panicked before line 68. -/
def State.halted {α : Type} (log : List Event) (v : PanicValue) : State α :=
  { main := .panicked v, tasks := [], mu := none, wg := 0, outputs := [], log := log }

/-- One step of the main goroutine (lines 72-79 and 95-99); `none` when it is blocked in
`wg.Wait()` or has ended. -/
def stepMain {α : Type} (s : State α) : Option (State α) :=
  match s.main with
  | .loop [] => some { s with main := .wait }
  | .loop (source :: rest) =>
    if source = "" then some { s with main := .loop rest }
    else some { s with main := .loop rest, wg := s.wg + 1,
                       tasks := s.tasks ++ [{ source := source, pc := .spawned }] }
  | .wait => if s.wg = 0 then some { s with main := .joined } else none
  | .joined =>
    if s.outputs.length = 0 then some { s with main := .panicked noSuccessfulMirrors }
    else some { s with main := .report s.outputs }
  | .panicked _ => none
  | .report _ => none

/-- One step of task `i` (lines 80-92); `none` when the task does not exist, is blocked in
`mu.Lock()` or has returned. -/
def stepTask {α : Type} (cli : Cli α) (platform : String) (s : State α) (i : Nat) :
    Option (State α) :=
  match s.tasks[i]? with
  | none => none
  | some t =>
    match t.pc with
    | .spawned =>
      some { s with tasks := s.tasks.set i { t with pc := .calling },
                    log := s.log ++ [.PullTagPushImage t.source platform] }
    | .calling =>
      match cli t.source platform with
      | .error _ => some { s with tasks := s.tasks.set i { t with pc := .failed } }
      | .ok output => some { s with tasks := s.tasks.set i { t with pc := .succeeded output } }
    | .failed => some { s with tasks := s.tasks.set i { t with pc := .done }, wg := s.wg - 1 }
    | .succeeded output =>
      match s.mu with
      | none => some { s with tasks := s.tasks.set i { t with pc := .locked output }, mu := some i }
      | some _ => none
    | .locked output =>
      some { s with tasks := s.tasks.set i { t with pc := .appended },
                    outputs := s.outputs ++ [output] }
    | .appended => some { s with tasks := s.tasks.set i { t with pc := .unlocked }, mu := none }
    | .unlocked => some { s with tasks := s.tasks.set i { t with pc := .done }, wg := s.wg - 1 }
    | .done => none

/-- One step of the chosen goroutine. -/
def step {α : Type} (cli : Cli α) (platform : String) (s : State α) : Thread → Option (State α)
  | .main => stepMain s
  | .task i => stepTask cli platform s i

/-- Run a schedule: the goroutines take their steps in the listed order; `none` when a listed
goroutine cannot step. -/
def exec {α : Type} (cli : Cli α) (platform : String) : List Thread → State α → Option (State α)
  | [], s => some s
  | th :: rest, s =>
    match step cli platform s th with
    | none => none
    | some s' => exec cli platform rest s'

/-- Go `main` (lines 47-99) under a schedule of its goroutines: the state reached. -/
def main {α : Type} (unmarshal : Unmarshal) (newCli : NewCliFn α) (flags : Flags)
    (sched : List Thread) : Option (State α) :=
  match startup unmarshal newCli flags with
  | .panicked log v =>
    match sched with
    | [] => some (State.halted log v)
    | _ :: _ => none
  | .ready log platform mirrors cli => exec cli platform sched (State.init log mirrors)

/-- The main goroutine is past `wg.Wait()`. -/
def MainPc.pastWait {α : Type} : MainPc α → Bool
  | .loop _ => false
  | .wait => false
  | _ => true

/-- The run has ended: the process panicked or went on to render the report. -/
def MainPc.ended {α : Type} : MainPc α → Bool
  | .panicked _ => true
  | .report _ => true
  | _ => false

/-- The task is between `mu.Lock()` and `mu.Unlock()`. -/
def TaskPc.inCritical {α : Type} : TaskPc α → Bool
  | .locked _ => true
  | .appended => true
  | _ => false

/-- The entries of `mirrors` for which a task is launched. -/
def eligible (mirrors : List String) : List String := mirrors.filter (fun source => source ≠ "")

/-! ## Quantities used to reason about runs -/

/-- The goroutine has returned. -/
def TaskPc.isDone {α : Type} : TaskPc α → Bool
  | .done => true
  | _ => false

/-- The goroutine has invoked `cli.PullTagPushImage`. -/
def TaskPc.hasCalled {α : Type} : TaskPc α → Bool
  | .spawned => false
  | _ => true

/-- The goroutine has run the append of line 91. -/
def TaskPc.hasAppended {α : Type} : TaskPc α → Bool
  | .appended => true
  | .unlocked => true
  | .done => true
  | _ => false

/-- What a task has added to `outputs` so far. -/
def Task.contrib {α : Type} (cli : Cli α) (platform : String) (t : Task α) : List α :=
  if t.pc.hasAppended then (cli t.source platform).toOption.toList else []

/-- The local variables of a task agree with what the client returns for its source. -/
def TaskOk {α : Type} (cli : Cli α) (platform : String) (t : Task α) : Prop :=
  match t.pc with
  | .succeeded output => cli t.source platform = .ok output
  | .locked output => cli t.source platform = .ok output
  | .failed => ∃ err, cli t.source platform = .error err
  | .appended => ∃ output, cli t.source platform = .ok output
  | .unlocked => ∃ output, cli t.source platform = .ok output
  | _ => True

/-- What the main goroutine knows at each position. -/
def MainOk {α : Type} (mirrors : List String) (s : State α) : Prop :=
  match s.main with
  | .loop rest => s.tasks.map Task.source ++ eligible rest = eligible mirrors
  | .wait => s.tasks.map Task.source = eligible mirrors
  | .joined => s.tasks.map Task.source = eligible mirrors ∧ s.wg = 0
  | .panicked v =>
    s.tasks.map Task.source = eligible mirrors ∧ s.wg = 0 ∧ v = noSuccessfulMirrors ∧
      s.outputs = []
  | .report outs =>
    s.tasks.map Task.source = eligible mirrors ∧ s.wg = 0 ∧ outs = s.outputs ∧ s.outputs ≠ []

/-- The invariant of the states reached from `State.init log0 mirrors`. -/
structure Inv {α : Type} (cli : Cli α) (platform : String) (mirrors : List String)
    (log0 : List Event) (s : State α) : Prop where
  ok : ∀ t ∈ s.tasks, TaskOk cli platform t
  wg_eq : s.wg = ((s.tasks.countP (fun t => !t.pc.isDone) : Nat) : Int)
  mu_count : s.tasks.countP (fun t => t.pc.inCritical) = if s.mu.isSome then 1 else 0
  mu_holder : ∀ i, s.mu = some i → ∃ t, s.tasks[i]? = some t ∧ t.pc.inCritical = true
  outs : List.Perm s.outputs (s.tasks.flatMap (Task.contrib cli platform))
  calls : ∃ calls, s.log = log0 ++ calls ∧
    List.Perm calls ((s.tasks.filter (fun t => t.pc.hasCalled)).map
      (fun t => Event.PullTagPushImage t.source platform))
  main_ok : MainOk mirrors s

/-- Steps a task still has to take, at most. -/
def TaskPc.fuel {α : Type} : TaskPc α → Nat
  | .spawned => 6
  | .calling => 5
  | .succeeded _ => 4
  | .locked _ => 3
  | .appended => 2
  | .unlocked => 1
  | .failed => 1
  | .done => 0

/-- Steps the main goroutine still has to take, counting those of the tasks it will launch. -/
def MainPc.fuel {α : Type} : MainPc α → Nat
  | .loop rest => 7 * rest.length + 3
  | .wait => 2
  | .joined => 1
  | _ => 0

/-- A bound on the number of steps left in any run from the state. -/
def State.fuel {α : Type} (s : State α) : Nat :=
  s.main.fuel + (s.tasks.map (fun t => t.pc.fuel)).sum

/-- The effect of one step of task `i` on its position and on the shared variables. -/
def TaskStep {α : Type} (cli : Cli α) (platform : String) (i : Nat) (source : String)
    (pc : TaskPc α) (mu : Option Nat) (wg : Int) (outputs : List α) (log : List Event)
    (pc' : TaskPc α) (mu' : Option Nat) (wg' : Int) (outputs' : List α) (log' : List Event) :
    Prop :=
  (pc = .spawned ∧ pc' = .calling ∧ mu' = mu ∧ wg' = wg ∧ outputs' = outputs ∧
      log' = log ++ [.PullTagPushImage source platform]) ∨
  (pc = .calling ∧ pc' = .failed ∧ (∃ err, cli source platform = .error err) ∧
      mu' = mu ∧ wg' = wg ∧ outputs' = outputs ∧ log' = log) ∨
  (∃ o, pc = .calling ∧ pc' = .succeeded o ∧ cli source platform = .ok o ∧
      mu' = mu ∧ wg' = wg ∧ outputs' = outputs ∧ log' = log) ∨
  (pc = .failed ∧ pc' = .done ∧ mu' = mu ∧ wg' = wg - 1 ∧ outputs' = outputs ∧ log' = log) ∨
  (∃ o, pc = .succeeded o ∧ pc' = .locked o ∧ mu = none ∧ mu' = some i ∧ wg' = wg ∧
      outputs' = outputs ∧ log' = log) ∨
  (∃ o, pc = .locked o ∧ pc' = .appended ∧ mu' = mu ∧ wg' = wg ∧ outputs' = outputs ++ [o] ∧
      log' = log) ∨
  (pc = .appended ∧ pc' = .unlocked ∧ mu' = none ∧ wg' = wg ∧ outputs' = outputs ∧
      log' = log) ∨
  (pc = .unlocked ∧ pc' = .done ∧ mu' = mu ∧ wg' = wg - 1 ∧ outputs' = outputs ∧ log' = log)

/-- The effect of one step of the main goroutine. -/
def MainStep {α : Type} (pc : MainPc α) (tasks : List (Task α)) (wg : Int) (outputs : List α)
    (pc' : MainPc α) (tasks' : List (Task α)) (wg' : Int) : Prop :=
  (pc = .loop [] ∧ pc' = .wait ∧ tasks' = tasks ∧ wg' = wg) ∨
  (∃ rest, pc = .loop ("" :: rest) ∧ pc' = .loop rest ∧ tasks' = tasks ∧ wg' = wg) ∨
  (∃ source rest, source ≠ "" ∧ pc = .loop (source :: rest) ∧ pc' = .loop rest ∧
      tasks' = tasks ++ [⟨source, .spawned⟩] ∧ wg' = wg + 1) ∨
  (pc = .wait ∧ wg = 0 ∧ pc' = .joined ∧ tasks' = tasks ∧ wg' = wg) ∨
  (pc = .joined ∧ outputs = [] ∧ pc' = .panicked noSuccessfulMirrors ∧ tasks' = tasks ∧
      wg' = wg) ∨
  (pc = .joined ∧ outputs ≠ [] ∧ pc' = .report outputs ∧ tasks' = tasks ∧ wg' = wg)

/-! ## Stubs used to run the model on concrete inputs -/

/-- A decoder stub: it decodes two descriptors and rejects every other input. -/
def stubUnmarshal : Unmarshal := fun input =>
  if input = "\x7b\"platform\":\"linux/amd64\",\"hub-mirror\":[\"x\",\"y\"]\x7d" then
    some { HubMirror := ["x", "y"], Platform := "linux/amd64" }
  else if input = "\x7b\"platform\":\" linux/amd64 \",\"hub-mirror\":[\" x \",\"\",\"y\"]\x7d" then
    some { HubMirror := [" x ", "", "y"], Platform := " linux/amd64 " }
  else none

/-- A client stub: mirroring fails for the source `y` and succeeds for every other source. -/
def stubCli : Cli String := fun source _ =>
  if source = "y" then .error "pull failed" else .ok ("mirror/" ++ source)

/-- A constructor stub that always returns `stubCli`. -/
def stubNewCli : NewCliFn String := fun _ _ _ => .ok stubCli

/-- Flags with the given content and limit, the other flags at their defaults. -/
def stubFlags (content : String) (maxContent : Int) : Flags :=
  { content := content, maxContent := maxContent, repository := "", username := "",
    password := "", outputPath := "output.md" }

/-- A schedule for the entries `x` and `y`: the two tasks are launched and interleave. -/
def scheduleXY : List Thread :=
  [.main, .main, .task 1, .task 0, .main, .task 1, .task 0, .task 1, .task 0, .task 0,
    .task 0, .task 0, .main, .main]

/-- The state `scheduleXY` leads to with `stubCli` from the entries `x` and `y`. -/
def finalXY : State String :=
  { main := .report ["mirror/x"],
    tasks := [{ source := "x", pc := .done }, { source := "y", pc := .done }],
    mu := none, wg := 0, outputs := ["mirror/x"],
    log := [.PullTagPushImage "y" "linux/amd64", .PullTagPushImage "x" "linux/amd64"] }

/-- A schedule for the entries `""` and `y`: one task is launched and runs to its end. -/
def scheduleY : List Thread :=
  [.main, .main, .main, .task 0, .task 0, .task 0, .main, .main]

/-- The state `scheduleY` leads to with `stubCli` from the entries `""` and `y`. -/
def finalY : State String :=
  { main := .panicked noSuccessfulMirrors, tasks := [{ source := "y", pc := .done }],
    mu := none, wg := 0, outputs := [], log := [.PullTagPushImage "y" ""] }

/-- The state after the first five steps of `scheduleXY`: task 0 is inside its client call. -/
def midXY : State String :=
  { main := .wait,
    tasks := [{ source := "x", pc := .calling }, { source := "y", pc := .calling }],
    mu := none, wg := 2, outputs := [],
    log := [.PullTagPushImage "y" "linux/amd64", .PullTagPushImage "x" "linux/amd64"] }

/-- A schedule for three entries: the third task runs first, then the first, then the
second. -/
def scheduleABC : List Thread :=
  [.main, .main, .main, .main] ++ List.replicate 6 (.task 2) ++ List.replicate 6 (.task 0) ++
    List.replicate 6 (.task 1) ++ [.main, .main]

/-- The state `scheduleABC` leads to with `stubCli` from the entries `a`, `b`, `c`. -/
def finalABC : State String :=
  { main := .report ["mirror/c", "mirror/a", "mirror/b"],
    tasks := [{ source := "a", pc := .done }, { source := "b", pc := .done },
      { source := "c", pc := .done }],
    mu := none, wg := 0, outputs := ["mirror/c", "mirror/a", "mirror/b"],
    log := [.PullTagPushImage "c" "", .PullTagPushImage "a" "", .PullTagPushImage "b" ""] }

/-! ## Facts about `strings.Split` and `strings.TrimSpace` -/

theorem splitGo_length (sep : Char) (cs cur : List Char) :
    (strings.splitGo sep cs cur).length = cs.count sep + 1 := by
  induction cs generalizing cur with
  | nil => simp [strings.splitGo]
  | cons c cs ih =>
    by_cases h : c = sep
    · subst h; simp [strings.splitGo, ih]
    · simp [strings.splitGo, h, ih, List.count_cons]

theorem splitGo_ne_nil (sep : Char) (cs cur : List Char) : strings.splitGo sep cs cur ≠ [] := by
  intro h
  have := splitGo_length sep cs cur
  rw [h] at this
  simp at this

theorem intercalate_go_data (sep : String) (l : List String) (acc : String) :
    (String.intercalate.go acc sep l).data =
      acc.data ++ (l.map (fun a => sep.data ++ a.data)).flatten := by
  induction l generalizing acc with
  | nil => simp [String.intercalate.go]
  | cons a l ih => simp [String.intercalate.go, ih]

theorem splitGo_join (sep : Char) (cs cur : List Char) :
    (String.intercalate (String.singleton sep) (strings.splitGo sep cs cur)).data =
      cur.reverse ++ cs := by
  induction cs generalizing cur with
  | nil => simp [strings.splitGo, String.intercalate, String.intercalate.go]
  | cons c cs ih =>
    by_cases h : c = sep
    · subst h
      have := ih []
      cases hs : strings.splitGo c cs [] with
      | nil => exact absurd hs (splitGo_ne_nil _ _ _)
      | cons a l =>
        rw [hs] at this
        simp only [strings.splitGo, if_true, hs]
        simp [String.intercalate, intercalate_go_data, String.singleton] at this ⊢
        rw [this]
    · simp only [strings.splitGo, h, if_false]
      rw [ih]; simp

theorem splitGo_sep_free (sep : Char) (cs cur : List Char) (hcur : sep ∉ cur) :
    ∀ seg ∈ strings.splitGo sep cs cur, sep ∉ seg.data := by
  induction cs generalizing cur with
  | nil => simpa [strings.splitGo] using hcur
  | cons c cs ih =>
    by_cases h : c = sep
    · subst h
      simp only [strings.splitGo, if_true, List.mem_cons]
      rintro seg (rfl | hseg)
      · simpa using hcur
      · exact ih [] (by simp) seg hseg
    · simp only [strings.splitGo, h, if_false]
      apply ih
      simp [hcur]
      exact fun h' => h h'.symm

theorem Split_length (s : String) (sep : Char) :
    (strings.Split s sep).length = s.data.count sep + 1 :=
  splitGo_length sep s.data []

theorem Split_join (s : String) (sep : Char) :
    String.intercalate (String.singleton sep) (strings.Split s sep) = s := by
  apply String.ext
  simpa [strings.Split] using splitGo_join sep s.data []

theorem Split_sep_free (s : String) (sep : Char) :
    ∀ seg ∈ strings.Split s sep, sep ∉ seg.data :=
  splitGo_sep_free sep s.data [] (by simp)

theorem TrimSpace_noSurroundingSpace (s : String) : NoSurroundingSpace (strings.TrimSpace s) := by
  constructor
  · intro c hc
    simp only [strings.TrimSpace] at hc
    have hpre : (s.data.dropWhile strings.isSpace).rdropWhile strings.isSpace <+:
        s.data.dropWhile strings.isSpace := List.rdropWhile_prefix _ _
    have hne : (s.data.dropWhile strings.isSpace).rdropWhile strings.isSpace ≠ [] := by
      intro h
      simp only [List.rdropWhile] at h
      rw [h] at hc; simp at hc
    obtain ⟨t, ht⟩ := hpre
    have h1 := List.head?_dropWhile_not strings.isSpace s.data
    rw [← ht, List.head?_append_of_ne_nil _ hne] at h1
    simp only [List.rdropWhile] at h1
    rw [hc] at h1
    simpa using h1
  · intro c hc
    simp only [strings.TrimSpace] at hc
    by_cases hne : (s.data.dropWhile strings.isSpace).rdropWhile strings.isSpace = []
    · simp only [List.rdropWhile] at hne
      rw [hne] at hc; simp at hc
    · have h1 := List.rdropWhile_last_not strings.isSpace _ hne
      have h2 := List.getLast?_eq_getLast _ hne
      simp only [List.rdropWhile] at h1 h2
      rw [h2] at hc
      simp only [Option.some.injEq] at hc
      rw [hc] at h1
      simpa using h1

theorem TrimSpace_isTrimOf (s : String) : IsTrimOf (strings.TrimSpace s) s := by
  refine ⟨s.data.takeWhile strings.isSpace,
    ((s.data.dropWhile strings.isSpace).reverse.takeWhile strings.isSpace).reverse, ?_, ?_, ?_,
    TrimSpace_noSurroundingSpace s⟩
  · simp only [strings.TrimSpace, List.append_assoc]
    rw [← List.reverse_append, List.takeWhile_append_dropWhile, List.reverse_reverse,
      List.takeWhile_append_dropWhile]
  · intro c hc; exact List.mem_takeWhile_imp hc
  · intro c hc
    rw [List.mem_reverse] at hc
    exact List.mem_takeWhile_imp hc

theorem isTrimOf_eq_empty_iff (e seg : String) (h : IsTrimOf e seg) :
    e = "" ↔ ∀ c ∈ seg.data, strings.isSpace c = true := by
  obtain ⟨pre, post, hseg, hpre, hpost, hhead, -⟩ := h
  constructor
  · rintro rfl c hc
    rw [hseg] at hc
    simp at hc
    rcases hc with hc | hc
    · exact hpre c hc
    · exact hpost c hc
  · intro hall
    cases he : e.data with
    | nil =>
      apply String.ext; simpa using he
    | cons c cs =>
      exfalso
      have := hhead c (by rw [he]; rfl)
      have h2 := hall c (by rw [hseg, he]; simp)
      rw [this] at h2; cases h2

theorem noSurroundingSpace_not_whitespaceOnly (e : String) (h : NoSurroundingSpace e) :
    ¬ WhitespaceOnly e := by
  rintro ⟨hne, hall⟩
  cases he : e.data with
  | nil => exact hne (String.ext (by simpa using he))
  | cons c cs =>
    have h1 := h.1 c (by rw [he]; rfl)
    have h2 := hall c (by rw [he]; simp)
    rw [h1] at h2; cases h2

/-- On the delimited path `parseInput` returns the trimmed segments of the input. -/
theorem parseInput_delimited (unmarshal : Unmarshal) (input : String)
    (h : unmarshal input = none) :
    parseInput unmarshal input =
      ("", (strings.Split input ',').map strings.TrimSpace, none) := by
  have hlen : ((strings.Split input ',').map strings.TrimSpace).length ≠ 0 := by
    rw [List.length_map, Split_length]; omega
  simp only [parseInput, h]
  rw [if_neg hlen]

/-! ## The interleaving semantics: inversion, invariant, termination -/

theorem getElem?_split {β : Type} {l : List β} {i : Nat} {t : β} (h : l[i]? = some t) :
    ∃ pre post, l = pre ++ t :: post ∧ pre.length = i ∧
      ∀ t', l.set i t' = pre ++ t' :: post := by
  obtain ⟨hi, ht⟩ := List.getElem?_eq_some.mp h
  refine ⟨l.take i, l.drop (i + 1), ?_, ?_, ?_⟩
  · rw [← ht, List.getElem_cons_drop, List.take_append_drop]
  · simp; omega
  · intro t'
    rw [List.set_eq_take_append_cons_drop, if_pos hi]

theorem stepTask_inv {α : Type} (cli : Cli α) (platform : String) (s s' : State α) (i : Nat)
    (h : stepTask cli platform s i = some s') :
    ∃ src pc pc' pre post, s.tasks[i]? = some ⟨src, pc⟩ ∧ s.tasks = pre ++ ⟨src, pc⟩ :: post ∧
      pre.length = i ∧ s'.tasks = pre ++ ⟨src, pc'⟩ :: post ∧ s'.main = s.main ∧
      TaskStep cli platform i src pc s.mu s.wg s.outputs s.log pc' s'.mu s'.wg s'.outputs
        s'.log := by
  obtain ⟨main, tasks, mu, wg, outputs, log⟩ := s
  simp only [stepTask] at h
  cases ht : tasks[i]? with
  | none => simp [ht] at h
  | some t =>
    obtain ⟨src, pc⟩ := t
    obtain ⟨pre, post, hl, hlen, hset⟩ := getElem?_split ht
    simp only [ht] at h
    cases pc with
    | spawned =>
      simp only [Option.some.injEq] at h; subst h
      exact ⟨src, _, .calling, pre, post, rfl, hl, hlen, hset _, rfl, by simp [TaskStep]⟩
    | calling =>
      cases hc : cli src platform with
      | error err =>
        simp only [hc, Option.some.injEq] at h; subst h
        exact ⟨src, _, .failed, pre, post, rfl, hl, hlen, hset _, rfl, by simp [TaskStep, hc]⟩
      | ok o =>
        simp only [hc, Option.some.injEq] at h; subst h
        exact ⟨src, _, .succeeded o, pre, post, rfl, hl, hlen, hset _, rfl,
          by simp [TaskStep, hc]⟩
    | failed =>
      simp only [Option.some.injEq] at h; subst h
      exact ⟨src, _, .done, pre, post, rfl, hl, hlen, hset _, rfl, by simp [TaskStep]⟩
    | succeeded o =>
      cases mu with
      | none =>
        simp only [Option.some.injEq] at h; subst h
        exact ⟨src, _, .locked o, pre, post, rfl, hl, hlen, hset _, rfl, by simp [TaskStep]⟩
      | some j => simp at h
    | locked o =>
      simp only [Option.some.injEq] at h; subst h
      exact ⟨src, _, .appended, pre, post, rfl, hl, hlen, hset _, rfl, by simp [TaskStep]⟩
    | appended =>
      simp only [Option.some.injEq] at h; subst h
      exact ⟨src, _, .unlocked, pre, post, rfl, hl, hlen, hset _, rfl, by simp [TaskStep]⟩
    | unlocked =>
      simp only [Option.some.injEq] at h; subst h
      exact ⟨src, _, .done, pre, post, rfl, hl, hlen, hset _, rfl, by simp [TaskStep]⟩
    | done => simp at h

theorem stepMain_inv {α : Type} (s s' : State α) (h : stepMain s = some s') :
    s'.mu = s.mu ∧ s'.outputs = s.outputs ∧ s'.log = s.log ∧
      MainStep s.main s.tasks s.wg s.outputs s'.main s'.tasks s'.wg := by
  obtain ⟨main, tasks, mu, wg, outputs, log⟩ := s
  simp only [stepMain] at h
  cases main with
  | loop rest =>
    cases rest with
    | nil =>
      simp only [Option.some.injEq] at h; subst h
      simp [MainStep]
    | cons source rest =>
      by_cases hs : source = ""
      · subst hs
        simp only [if_true, Option.some.injEq] at h; subst h
        simp [MainStep]
      · simp only [hs, if_false, Option.some.injEq] at h; subst h
        refine ⟨rfl, rfl, rfl, Or.inr (Or.inr (Or.inl ⟨source, rest, hs, rfl, rfl, rfl, rfl⟩))⟩
  | wait =>
    by_cases hw : wg = 0
    · simp only [hw, if_true, Option.some.injEq] at h; subst h
      simp [MainStep, hw]
    · simp [hw] at h
  | joined =>
    by_cases ho : outputs.length = 0
    · simp only [ho, if_true, Option.some.injEq] at h; subst h
      simp [MainStep, List.length_eq_zero.mp ho]
    · simp only [ho, if_false, Option.some.injEq] at h; subst h
      have : outputs ≠ [] := fun h' => ho (by simp [h'])
      simp [MainStep, this]
  | panicked v => simp at h
  | report outs => simp at h

theorem getElem?_replace {β : Type} (pre post : List β) (x y : β) (j : Nat) :
    (pre ++ x :: post)[j]? = if j = pre.length then some x else (pre ++ y :: post)[j]? := by
  by_cases hj : j = pre.length
  · subst hj
    rw [if_pos rfl, List.getElem?_append_right (Nat.le_refl _)]
    simp
  · rw [if_neg hj]
    rcases Nat.lt_or_gt_of_ne hj with hlt | hgt
    · rw [List.getElem?_append_left hlt, List.getElem?_append_left hlt]
    · rw [List.getElem?_append_right (by omega), List.getElem?_append_right (by omega)]
      obtain ⟨k, hk⟩ : ∃ k, j - pre.length = k + 1 := ⟨j - pre.length - 1, by omega⟩
      rw [hk]; simp

theorem holder_replace {α : Type} (pre post : List (Task α)) (old new : Task α)
    (mu mu' : Option Nat)
    (hmh : ∀ j, mu = some j → ∃ t, (pre ++ old :: post)[j]? = some t ∧ t.pc.inCritical = true)
    (hcase : (mu' = mu ∧ (old.pc.inCritical = true → new.pc.inCritical = true)) ∨
      (mu' = some pre.length ∧ new.pc.inCritical = true) ∨ mu' = none) :
    ∀ j, mu' = some j → ∃ t, (pre ++ new :: post)[j]? = some t ∧ t.pc.inCritical = true := by
  intro j hj
  rw [getElem?_replace pre post new old]
  rcases hcase with ⟨rfl, hc⟩ | ⟨rfl, hc⟩ | rfl
  · obtain ⟨t, ht, htc⟩ := hmh j hj
    by_cases hjp : j = pre.length
    · subst hjp
      rw [List.getElem?_append_right (Nat.le_refl _)] at ht
      simp only [Nat.sub_self, List.getElem?_cons_zero, Option.some.injEq] at ht
      subst ht
      exact ⟨new, by simp, hc htc⟩
    · exact ⟨t, by simpa [hjp] using ht, htc⟩
  · simp only [Option.some.injEq] at hj
    subst hj
    exact ⟨new, by simp, hc⟩
  · cases hj

theorem perm_insert_of_snoc {β : Type} {l a b : List β} (x : β) (h : List.Perm l (a ++ b)) :
    List.Perm (l ++ [x]) (a ++ x :: b) :=
  ((h.append_right [x]).trans (List.perm_append_singleton x (a ++ b))).trans
    List.perm_middle.symm

theorem inv_stepTask {α : Type} (cli : Cli α) (platform : String) (mirrors : List String)
    (log0 : List Event) (s s' : State α) (i : Nat)
    (hinv : Inv cli platform mirrors log0 s) (h : stepTask cli platform s i = some s') :
    Inv cli platform mirrors log0 s' := by
  obtain ⟨src, pc, pc', pre, post, hget, hl, hlen, hl', hmain, hstep⟩ :=
    stepTask_inv cli platform s s' i h
  obtain ⟨mpc0, tasks, mu, wg, outputs, log⟩ := s
  obtain ⟨mpc, tasks', mu', wg', outputs', log'⟩ := s'
  obtain ⟨hok, hwg, hmc, hmh, houts, ⟨calls, hlog, hcalls⟩, hmo⟩ := hinv
  simp only at hget hl hl' hmain hstep hok hwg hmc hmh houts hlog hcalls
  subst hl hl' hmain hlen
  have hnd : pc.isDone = false := by
    rcases hstep with h | h | ⟨o, h⟩ | h | ⟨o, h⟩ | ⟨o, h⟩ | h | h <;> simp [h.1, TaskPc.isDone]
  have hmo' : ∀ mu' wg' outs' log', MainOk mirrors
      (⟨mpc, pre ++ ⟨src, pc'⟩ :: post, mu', wg', outs', log'⟩ : State α) := by
    intro mu' wg' outs' log'
    have hw : wg ≠ 0 := by
      rw [hwg]; simp [List.countP_append, List.countP_cons, hnd]; omega
    cases mpc <;> simp_all [MainOk]
  have hokt := hok ⟨src, pc⟩ (by simp)
  have hok' : TaskOk cli platform ⟨src, pc'⟩ → ∀ t ∈ pre ++ ⟨src, pc'⟩ :: post,
      TaskOk cli platform t := by
    intro hnew t ht
    simp only [List.mem_append, List.mem_cons] at ht
    rcases ht with ht | rfl | ht
    · exact hok t (by simp [ht])
    · exact hnew
    · exact hok t (by simp [ht])
  have hmh' := holder_replace pre post ⟨src, pc⟩ ⟨src, pc'⟩ mu mu' hmh
  simp only [List.countP_append, List.countP_cons, List.flatMap_append, List.flatMap_cons,
    List.filter_append, List.map_append] at hwg hmc houts hcalls
  rcases hstep with ⟨rfl, rfl, rfl, rfl, rfl, rfl⟩ | ⟨rfl, rfl, ⟨err, herr⟩, rfl, rfl, rfl, rfl⟩ |
    ⟨o, rfl, rfl, hcli, rfl, rfl, rfl, rfl⟩ | ⟨rfl, rfl, rfl, rfl, rfl, rfl⟩ |
    ⟨o, rfl, rfl, rfl, rfl, rfl, rfl, rfl⟩ | ⟨o, rfl, rfl, rfl, rfl, rfl, rfl⟩ |
    ⟨rfl, rfl, rfl, rfl, rfl, rfl⟩ | ⟨rfl, rfl, rfl, rfl, rfl, rfl⟩
  · -- the call is invoked
    refine ⟨hok' trivial, ?_, ?_, hmh' (Or.inl ⟨rfl, by simp [TaskPc.inCritical]⟩), ?_,
      ⟨calls ++ [.PullTagPushImage src platform], by simp [hlog], ?_⟩, hmo' _ _ _ _⟩
    · simpa [List.countP_append, List.countP_cons, TaskPc.isDone] using hwg
    · simpa [List.countP_append, List.countP_cons, TaskPc.inCritical] using hmc
    · simpa [List.flatMap_append, List.flatMap_cons, Task.contrib, TaskPc.hasAppended] using houts
    · simp only [List.filter_append, List.map_append, List.filter_cons, TaskPc.hasCalled,
        if_true, List.map_cons]
      apply perm_insert_of_snoc
      simpa [List.filter_cons, TaskPc.hasCalled] using hcalls
  · -- the call fails
    refine ⟨hok' ⟨err, herr⟩, ?_, ?_, hmh' (Or.inl ⟨rfl, by simp [TaskPc.inCritical]⟩), ?_,
      ⟨calls, hlog, ?_⟩, hmo' _ _ _ _⟩
    · simpa [List.countP_append, List.countP_cons, TaskPc.isDone] using hwg
    · simpa [List.countP_append, List.countP_cons, TaskPc.inCritical] using hmc
    · simpa [List.flatMap_append, List.flatMap_cons, Task.contrib, TaskPc.hasAppended] using houts
    · simpa [List.filter_cons, TaskPc.hasCalled] using hcalls
  · -- the call succeeds
    refine ⟨hok' hcli, ?_, ?_, hmh' (Or.inl ⟨rfl, by simp [TaskPc.inCritical]⟩), ?_,
      ⟨calls, hlog, ?_⟩, hmo' _ _ _ _⟩
    · simpa [List.countP_append, List.countP_cons, TaskPc.isDone] using hwg
    · simpa [List.countP_append, List.countP_cons, TaskPc.inCritical] using hmc
    · simpa [List.flatMap_append, List.flatMap_cons, Task.contrib, TaskPc.hasAppended] using houts
    · simpa [List.filter_cons, TaskPc.hasCalled] using hcalls
  · -- a failed task returns
    obtain ⟨err, herr⟩ := hokt
    refine ⟨hok' trivial, ?_, ?_, hmh' (Or.inl ⟨rfl, by simp [TaskPc.inCritical]⟩), ?_,
      ⟨calls, hlog, ?_⟩, hmo' _ _ _ _⟩
    · have e1 : (TaskPc.failed : TaskPc α).isDone = false := rfl
      have e2 : (TaskPc.done : TaskPc α).isDone = true := rfl
      simp only [List.countP_append, List.countP_cons, e1, e2, Bool.not_false, Bool.not_true,
        Bool.false_eq_true, if_false, if_true] at hwg ⊢
      omega
    · simpa [List.countP_append, List.countP_cons, TaskPc.inCritical] using hmc
    · simpa [List.flatMap_append, List.flatMap_cons, Task.contrib, TaskPc.hasAppended, herr,
        Except.toOption] using houts
    · simpa [List.filter_cons, TaskPc.hasCalled] using hcalls
  · -- the mutex is acquired
    refine ⟨hok' hokt, ?_, ?_, hmh' (Or.inr (Or.inl ⟨rfl, by simp [TaskPc.inCritical]⟩)), ?_,
      ⟨calls, hlog, ?_⟩, hmo' _ _ _ _⟩
    · simpa [List.countP_append, List.countP_cons, TaskPc.isDone] using hwg
    · have e1 : (TaskPc.succeeded o).inCritical = false := rfl
      have e2 : (TaskPc.locked o).inCritical = true := rfl
      simp only [List.countP_append, List.countP_cons, e1, e2, Bool.false_eq_true, if_false,
        if_true, Option.isSome_none, Option.isSome_some] at hmc ⊢
      omega
    · simpa [List.flatMap_append, List.flatMap_cons, Task.contrib, TaskPc.hasAppended] using houts
    · simpa [List.filter_cons, TaskPc.hasCalled] using hcalls
  · -- the append
    have hcli : cli src platform = .ok o := hokt
    refine ⟨hok' ⟨o, hcli⟩, ?_, ?_, hmh' (Or.inl ⟨rfl, by simp [TaskPc.inCritical]⟩), ?_,
      ⟨calls, hlog, ?_⟩, hmo' _ _ _ _⟩
    · simpa [List.countP_append, List.countP_cons, TaskPc.isDone] using hwg
    · simpa [List.countP_append, List.countP_cons, TaskPc.inCritical] using hmc
    · simp only [List.flatMap_append, List.flatMap_cons, Task.contrib, TaskPc.hasAppended,
        hcli, Except.toOption, if_true, Option.toList, List.singleton_append]
      apply perm_insert_of_snoc
      simpa [Task.contrib, TaskPc.hasAppended] using houts
    · simpa [List.filter_cons, TaskPc.hasCalled] using hcalls
  · -- the mutex is released
    refine ⟨hok' hokt, ?_, ?_, hmh' (Or.inr (Or.inr rfl)), ?_,
      ⟨calls, hlog, ?_⟩, hmo' _ _ _ _⟩
    · simpa [List.countP_append, List.countP_cons, TaskPc.isDone] using hwg
    · have e1 : (TaskPc.appended : TaskPc α).inCritical = true := rfl
      have e2 : (TaskPc.unlocked : TaskPc α).inCritical = false := rfl
      simp only [List.countP_append, List.countP_cons, e1, e2, Bool.false_eq_true, if_false,
        if_true, Option.isSome_none] at hmc ⊢
      split at hmc <;> omega
    · simpa [List.flatMap_append, List.flatMap_cons, Task.contrib, TaskPc.hasAppended] using houts
    · simpa [List.filter_cons, TaskPc.hasCalled] using hcalls
  · -- a successful task returns
    refine ⟨hok' trivial, ?_, ?_, hmh' (Or.inl ⟨rfl, by simp [TaskPc.inCritical]⟩), ?_,
      ⟨calls, hlog, ?_⟩, hmo' _ _ _ _⟩
    · have e1 : (TaskPc.unlocked : TaskPc α).isDone = false := rfl
      have e2 : (TaskPc.done : TaskPc α).isDone = true := rfl
      simp only [List.countP_append, List.countP_cons, e1, e2, Bool.not_false, Bool.not_true,
        Bool.false_eq_true, if_false, if_true] at hwg ⊢
      omega
    · simpa [List.countP_append, List.countP_cons, TaskPc.inCritical] using hmc
    · simpa [List.flatMap_append, List.flatMap_cons, Task.contrib, TaskPc.hasAppended] using houts
    · simpa [List.filter_cons, TaskPc.hasCalled] using hcalls

theorem inv_stepMain {α : Type} (cli : Cli α) (platform : String) (mirrors : List String)
    (log0 : List Event) (s s' : State α)
    (hinv : Inv cli platform mirrors log0 s) (h : stepMain s = some s') :
    Inv cli platform mirrors log0 s' := by
  obtain ⟨hmu, hout, hlg, hstep⟩ := stepMain_inv s s' h
  obtain ⟨mpc0, tasks, mu, wg, outputs, log⟩ := s
  obtain ⟨mpc, tasks', mu', wg', outputs', log'⟩ := s'
  obtain ⟨hok, hwg, hmc, hmh, houts, hcalls, hmo⟩ := hinv
  simp only at hmu hout hlg hstep hok hwg hmc hmh houts hcalls
  subst hmu hout hlg
  rcases hstep with ⟨rfl, rfl, rfl, rfl⟩ | ⟨rest, rfl, rfl, rfl, rfl⟩ |
    ⟨source, rest, hsrc, rfl, rfl, rfl, rfl⟩ | ⟨rfl, hw, rfl, rfl, rfl⟩ |
    ⟨rfl, ho, rfl, rfl, rfl⟩ | ⟨rfl, ho, rfl, rfl, rfl⟩
  · exact ⟨hok, hwg, hmc, hmh, houts, hcalls, by simpa [MainOk, eligible] using hmo⟩
  · exact ⟨hok, hwg, hmc, hmh, houts, hcalls, by simpa [MainOk, eligible] using hmo⟩
  · refine ⟨?_, ?_, ?_, ?_, ?_, ?_, ?_⟩
    · intro t ht
      simp only [List.mem_append, List.mem_singleton] at ht
      rcases ht with ht | rfl
      · exact hok t ht
      · trivial
    · have e1 : (TaskPc.spawned : TaskPc α).isDone = false := rfl
      simp only [List.countP_append, List.countP_cons, List.countP_nil, e1, Bool.not_false,
        if_true]
      omega
    · have e1 : (TaskPc.spawned : TaskPc α).inCritical = false := rfl
      simpa only [List.countP_append, List.countP_cons, List.countP_nil, e1, Bool.false_eq_true,
        if_false, Nat.add_zero] using hmc
    · intro j hj
      obtain ⟨t, ht, hc⟩ := hmh j hj
      have hlt : j < tasks.length := (List.getElem?_eq_some.mp ht).1
      exact ⟨t, by rw [List.getElem?_append_left hlt]; exact ht, hc⟩
    · simpa [List.flatMap_append, Task.contrib, TaskPc.hasAppended] using houts
    · simpa [List.filter_append, List.filter_cons, TaskPc.hasCalled] using hcalls
    · simp only [MainOk, eligible] at hmo ⊢
      rw [← hmo]
      simp [List.filter_cons, hsrc]
  · exact ⟨hok, hwg, hmc, hmh, houts, hcalls, by simp only [MainOk] at hmo ⊢; exact ⟨hmo, hw⟩⟩
  · exact ⟨hok, hwg, hmc, hmh, houts, hcalls,
      by simp only [MainOk] at hmo ⊢; exact ⟨hmo.1, hmo.2, trivial, ho⟩⟩
  · exact ⟨hok, hwg, hmc, hmh, houts, hcalls,
      by simp only [MainOk] at hmo ⊢; exact ⟨hmo.1, hmo.2, trivial, ho⟩⟩

theorem inv_init {α : Type} (cli : Cli α) (platform : String) (mirrors : List String)
    (log0 : List Event) : Inv cli platform mirrors log0 (State.init log0 mirrors : State α) := by
  refine ⟨?_, ?_, ?_, ?_, ?_, ⟨[], ?_, ?_⟩, ?_⟩ <;> simp [State.init, MainOk]

theorem inv_step {α : Type} (cli : Cli α) (platform : String) (mirrors : List String)
    (log0 : List Event) (s s' : State α) (th : Thread)
    (hinv : Inv cli platform mirrors log0 s) (h : step cli platform s th = some s') :
    Inv cli platform mirrors log0 s' := by
  cases th with
  | main => exact inv_stepMain cli platform mirrors log0 s s' hinv h
  | task i => exact inv_stepTask cli platform mirrors log0 s s' i hinv h

theorem exec_cons_some {α : Type} (cli : Cli α) (platform : String) (th : Thread)
    (rest : List Thread) (s s' : State α) (h : exec cli platform (th :: rest) s = some s') :
    ∃ s1, step cli platform s th = some s1 ∧ exec cli platform rest s1 = some s' := by
  simp only [exec] at h
  cases hs : step cli platform s th with
  | none => simp [hs] at h
  | some s1 => exact ⟨s1, rfl, by simpa [hs] using h⟩

theorem inv_exec {α : Type} (cli : Cli α) (platform : String) (mirrors : List String)
    (log0 : List Event) (sched : List Thread) (s s' : State α)
    (hinv : Inv cli platform mirrors log0 s) (h : exec cli platform sched s = some s') :
    Inv cli platform mirrors log0 s' := by
  induction sched generalizing s with
  | nil => simp only [exec, Option.some.injEq] at h; subst h; exact hinv
  | cons th rest ih =>
    obtain ⟨s1, h1, h2⟩ := exec_cons_some cli platform th rest s s' h
    exact ih s1 (inv_step cli platform mirrors log0 s s1 th hinv h1) h2

theorem exec_append {α : Type} (cli : Cli α) (platform : String) (a b : List Thread)
    (s s1 s2 : State α) (h1 : exec cli platform a s = some s1)
    (h2 : exec cli platform b s1 = some s2) : exec cli platform (a ++ b) s = some s2 := by
  induction a generalizing s with
  | nil => simp only [exec, Option.some.injEq] at h1; subst h1; simpa using h2
  | cons th rest ih =>
    obtain ⟨s0, h0, h0'⟩ := exec_cons_some cli platform th rest s s1 h1
    simp only [List.cons_append, exec, h0]
    exact ih s0 h0'

theorem step_fuel {α : Type} (cli : Cli α) (platform : String) (s s' : State α) (th : Thread)
    (h : step cli platform s th = some s') : s'.fuel < s.fuel := by
  cases th with
  | main =>
    obtain ⟨-, -, -, hstep⟩ := stepMain_inv s s' h
    obtain ⟨mpc0, tasks, mu, wg, outputs, log⟩ := s
    obtain ⟨mpc, tasks', mu', wg', outputs', log'⟩ := s'
    simp only at hstep
    rcases hstep with ⟨rfl, rfl, rfl, rfl⟩ | ⟨rest, rfl, rfl, rfl, rfl⟩ |
      ⟨source, rest, hsrc, rfl, rfl, rfl, rfl⟩ | ⟨rfl, hw, rfl, rfl, rfl⟩ |
      ⟨rfl, ho, rfl, rfl, rfl⟩ | ⟨rfl, ho, rfl, rfl, rfl⟩ <;>
    (simp [State.fuel, MainPc.fuel, TaskPc.fuel]; try omega)
  | task i =>
    obtain ⟨src, pc, pc', pre, post, -, hl, -, hl', hmain, hstep⟩ :=
      stepTask_inv cli platform s s' i h
    obtain ⟨mpc0, tasks, mu, wg, outputs, log⟩ := s
    obtain ⟨mpc, tasks', mu', wg', outputs', log'⟩ := s'
    simp only at hl hl' hmain hstep
    subst hl hl' hmain
    have hpc : pc'.fuel < pc.fuel := by
      rcases hstep with h | h | ⟨o, h⟩ | h | ⟨o, h⟩ | ⟨o, h⟩ | h | h <;>
        simp [h.1, h.2.1, TaskPc.fuel]
    simp only [State.fuel, List.map_append, List.map_cons, List.sum_append, List.sum_cons]
    omega

theorem exec_fuel {α : Type} (cli : Cli α) (platform : String) (sched : List Thread)
    (s s' : State α) (h : exec cli platform sched s = some s') :
    s'.fuel + sched.length ≤ s.fuel := by
  induction sched generalizing s with
  | nil => simp only [exec, Option.some.injEq] at h; subst h; simp
  | cons th rest ih =>
    obtain ⟨s1, h1, h2⟩ := exec_cons_some cli platform th rest s s' h
    have := step_fuel cli platform s s1 th h1
    have := ih s1 h2
    simp only [List.length_cons]
    omega

theorem stepTask_enabled {α : Type} (cli : Cli α) (platform : String) (s : State α) (i : Nat)
    (t : Task α) (ht : s.tasks[i]? = some t) (hnd : t.pc.isDone = false)
    (hmu : s.mu = none ∨ t.pc.inCritical = true) :
    ∃ s', stepTask cli platform s i = some s' := by
  obtain ⟨src, pc⟩ := t
  simp only [stepTask, ht]
  cases pc with
  | spawned => exact ⟨_, rfl⟩
  | calling => cases cli src platform <;> exact ⟨_, rfl⟩
  | failed => exact ⟨_, rfl⟩
  | succeeded o =>
    rcases hmu with hmu | hmu
    · simp only [hmu]; exact ⟨_, rfl⟩
    · cases hmu
  | locked o => exact ⟨_, rfl⟩
  | appended => exact ⟨_, rfl⟩
  | unlocked => exact ⟨_, rfl⟩
  | done => cases hnd

theorem progress {α : Type} (cli : Cli α) (platform : String) (mirrors : List String)
    (log0 : List Event) (s : State α) (hinv : Inv cli platform mirrors log0 s)
    (hne : s.main.ended = false) : ∃ th s', step cli platform s th = some s' := by
  obtain ⟨hok, hwg, hmc, hmh, houts, hcalls, hmo⟩ := hinv
  cases hm : s.main with
  | loop rest =>
    refine ⟨.main, ?_⟩
    simp only [step, stepMain, hm]
    cases rest with
    | nil => exact ⟨_, rfl⟩
    | cons source rest => by_cases hs : source = "" <;> simp [hs]
  | wait =>
    by_cases hw : s.wg = 0
    · exact ⟨.main, by simp [step, stepMain, hm, hw]⟩
    · have hpos : 0 < s.tasks.countP (fun t => !t.pc.isDone) := by
        rw [hwg] at hw
        omega
      obtain ⟨t, htmem, htnd⟩ := List.countP_pos_iff.mp hpos
      obtain ⟨i, hi⟩ := List.mem_iff_getElem?.mp htmem
      have htnd' : t.pc.isDone = false := by simpa using htnd
      cases hmu : s.mu with
      | none =>
        obtain ⟨s', hs'⟩ := stepTask_enabled cli platform s i t hi htnd' (Or.inl hmu)
        exact ⟨.task i, s', hs'⟩
      | some j =>
        obtain ⟨t', ht', hc⟩ := hmh j hmu
        have hnd' : t'.pc.isDone = false := by
          cases hp : t'.pc <;> simp [hp, TaskPc.inCritical, TaskPc.isDone] at hc ⊢
        obtain ⟨s', hs'⟩ := stepTask_enabled cli platform s j t' ht' hnd' (Or.inr hc)
        exact ⟨.task j, s', hs'⟩
  | joined =>
    refine ⟨.main, ?_⟩
    simp only [step, stepMain, hm]
    by_cases ho : s.outputs.length = 0 <;> simp [ho]
  | panicked v => simp [hm, MainPc.ended] at hne
  | report outs => simp [hm, MainPc.ended] at hne

theorem exists_completion {α : Type} (cli : Cli α) (platform : String) (mirrors : List String)
    (log0 : List Event) (n : Nat) (s : State α) (hfuel : s.fuel ≤ n)
    (hinv : Inv cli platform mirrors log0 s) :
    ∃ sched s', exec cli platform sched s = some s' ∧ s'.main.ended = true := by
  induction n generalizing s with
  | zero =>
    by_cases he : s.main.ended = true
    · exact ⟨[], s, rfl, he⟩
    · obtain ⟨th, s1, h1⟩ := progress cli platform mirrors log0 s hinv (by simpa using he)
      have := step_fuel cli platform s s1 th h1
      omega
  | succ n ih =>
    by_cases he : s.main.ended = true
    · exact ⟨[], s, rfl, he⟩
    · obtain ⟨th, s1, h1⟩ := progress cli platform mirrors log0 s hinv (by simpa using he)
      have hlt := step_fuel cli platform s s1 th h1
      obtain ⟨sched, s', h2, he'⟩ := ih s1 (by omega) (inv_step cli platform mirrors log0 s s1 th hinv h1)
      exact ⟨th :: sched, s', by simp [exec, h1, h2], he'⟩

theorem filterMap_eq_flatMap_toList {β γ : Type} (f : β → Option γ) (l : List β) :
    l.filterMap f = l.flatMap (fun a => (f a).toList) := by
  induction l with
  | nil => rfl
  | cons a l ih =>
    cases h : f a <;> simp [List.filterMap_cons, h, ih]

theorem joined_facts {α : Type} (cli : Cli α) (platform : String) (mirrors : List String)
    (log0 : List Event) (s : State α) (hinv : Inv cli platform mirrors log0 s)
    (hp : s.main.pastWait = true) :
    (∀ t ∈ s.tasks, t.pc = .done) ∧ s.tasks.map Task.source = eligible mirrors ∧
    s.mu = none ∧ s.wg = 0 ∧
    (∃ calls, s.log = log0 ++ calls ∧ List.Perm calls
      ((eligible mirrors).map (fun source => Event.PullTagPushImage source platform))) ∧
    List.Perm s.outputs
      ((eligible mirrors).filterMap (fun source => (cli source platform).toOption)) := by
  obtain ⟨hok, hwg, hmc, hmh, houts, ⟨calls, hlog, hcalls⟩, hmo⟩ := hinv
  have hsrc : s.tasks.map Task.source = eligible mirrors ∧ s.wg = 0 := by
    cases hm : s.main <;> simp [hm, MainPc.pastWait, MainOk] at hp hmo
    · exact hmo
    · exact ⟨hmo.1, hmo.2.1⟩
    · exact ⟨hmo.1, hmo.2.1⟩
  have hdone : ∀ t ∈ s.tasks, t.pc = .done := by
    intro t ht
    have h0 : s.tasks.countP (fun t => !t.pc.isDone) = 0 := by
      have := hsrc.2
      rw [hwg] at this
      omega
    have := List.countP_eq_zero.mp h0 t ht
    cases hpc : t.pc <;> simp [hpc, TaskPc.isDone] at this ⊢
  have hmu : s.mu = none := by
    have h0 : s.tasks.countP (fun t => t.pc.inCritical) = 0 := by
      apply List.countP_eq_zero.mpr
      intro t ht
      simp [hdone t ht, TaskPc.inCritical]
    rw [h0] at hmc
    cases hmu : s.mu with
    | none => rfl
    | some j => simp [hmu] at hmc
  refine ⟨hdone, hsrc.1, hmu, hsrc.2, ⟨calls, hlog, ?_⟩, ?_⟩
  · have hf : s.tasks.filter (fun t => t.pc.hasCalled) = s.tasks := by
      apply List.filter_eq_self.mpr
      intro t ht
      simp [hdone t ht, TaskPc.hasCalled]
    rw [hf] at hcalls
    rw [← hsrc.1, List.map_map]
    exact hcalls
  · have hc : s.tasks.flatMap (Task.contrib cli platform) =
        (s.tasks.map Task.source).filterMap (fun source => (cli source platform).toOption) := by
      rw [filterMap_eq_flatMap_toList, List.flatMap_map]
      apply List.flatMap_congr
      intro t ht
      simp [Task.contrib, hdone t ht, TaskPc.hasAppended]
    rw [hc, hsrc.1] at houts
    exact houts

/-! ## The claims about `parseInput` -/

theorem parseInput_error_none (unmarshal : Unmarshal) (input : String) :
    (parseInput unmarshal input).2.2 = none := by
  cases h : unmarshal input with
  | none => rw [parseInput_delimited unmarshal input h]
  | some hm => simp [parseInput, h]

/-- C1 (the code departs from the claim): for the empty content string `parseInput` returns
the one-element list of the empty string and a nil error, whatever the decoder does; `main`
then constructs the client, launches no task and panics with the no-successful-mirrors
message. -/
theorem empty_content_not_rejected :
    (∀ unmarshal : Unmarshal, (parseInput unmarshal "").2.2 = none) ∧
    (∀ unmarshal : Unmarshal, unmarshal "" = none → parseInput unmarshal "" = ("", [""], none)) ∧
    main stubUnmarshal stubNewCli (stubFlags "" 11) [.main, .main, .main, .main] =
      some { main := .panicked noSuccessfulMirrors, tasks := [], mu := none, wg := 0,
             outputs := [], log := [.NewCli "" "" ""] } := by
  refine ⟨fun unmarshal => parseInput_error_none unmarshal "", ?_, by decide⟩
  intro unmarshal h
  rw [parseInput_delimited unmarshal "" h]
  rfl

/-- C2: when the decoder accepts the input and yields platform `p` and list `L`, `parseInput`
returns exactly `(p, L, nil)`: same platform, same elements in the same order, same length,
nothing trimmed and nothing removed. -/
theorem parseInput_descriptor_verbatim (unmarshal : Unmarshal) (input p : String)
    (L : List String) (h : unmarshal input = some { HubMirror := L, Platform := p }) :
    parseInput unmarshal input = (p, L, none) ∧
      (parseInput unmarshal input).2.1.length = L.length ∧
      ∀ i : Nat, (parseInput unmarshal input).2.1[i]? = L[i]? := by
  have : parseInput unmarshal input = (p, L, none) := by simp [parseInput, h]
  rw [this]
  exact ⟨rfl, rfl, fun _ => rfl⟩

theorem parseInput_descriptor_verbatim_witness :
    stubUnmarshal "\x7b\"platform\":\" linux/amd64 \",\"hub-mirror\":[\" x \",\"\",\"y\"]\x7d" =
        some { HubMirror := [" x ", "", "y"], Platform := " linux/amd64 " } ∧
      parseInput stubUnmarshal
          "\x7b\"platform\":\" linux/amd64 \",\"hub-mirror\":[\" x \",\"\",\"y\"]\x7d" =
        (" linux/amd64 ", [" x ", "", "y"], none) :=
  ⟨by decide, (parseInput_descriptor_verbatim stubUnmarshal _ " linux/amd64 " [" x ", "", "y"]
    (by decide)).1⟩

theorem forall₂_map_trim (segs : List String) :
    List.Forall₂ IsTrimOf (segs.map strings.TrimSpace) segs := by
  induction segs with
  | nil => exact List.Forall₂.nil
  | cons a l ih => exact List.Forall₂.cons (TrimSpace_isTrimOf a) ih

/-- C3, as stated, fails: on the delimited path the input `a,,b` is parsed without error and
the returned list contains the empty string. -/
theorem delimited_sources_may_be_empty :
    stubUnmarshal "a,,b" = none ∧ (parseInput stubUnmarshal "a,,b").2.2 = none ∧
      (parseInput stubUnmarshal "a,,b").2.1 = ["a", "", "b"] ∧
      "" ∈ (parseInput stubUnmarshal "a,,b").2.1 := by
  decide

/-- C3 (amended): on the delimited path, when no error is returned, the returned list has one
entry per comma-separated segment of the input, in the order of the input; the entry is the
segment with surrounding white space removed, it is empty exactly when the segment is empty or
white space only, and no entry is a non-empty white-space-only string. -/
theorem delimited_sources_trimmed_in_order (unmarshal : Unmarshal) (input : String)
    (h : unmarshal input = none) (herr : (parseInput unmarshal input).2.2 = none) :
    (∀ e ∈ (parseInput unmarshal input).2.1, ¬ WhitespaceOnly e) ∧
    ∃ segs : List String, ",".intercalate segs = input ∧ (∀ seg ∈ segs, ',' ∉ seg.data) ∧
      List.Forall₂ (fun e seg => IsTrimOf e seg ∧
          (e = "" ↔ ∀ c ∈ seg.data, strings.isSpace c = true))
        (parseInput unmarshal input).2.1 segs := by
  have _ := herr
  rw [parseInput_delimited unmarshal input h]
  refine ⟨?_, strings.Split input ',', Split_join input ',', Split_sep_free input ',', ?_⟩
  · intro e he
    simp only [List.mem_map] at he
    obtain ⟨seg, -, rfl⟩ := he
    exact noSurroundingSpace_not_whitespaceOnly _ (TrimSpace_noSurroundingSpace seg)
  · exact (forall₂_map_trim _).imp
      (fun e seg hts => ⟨hts, isTrimOf_eq_empty_iff e seg hts⟩)

theorem delimited_sources_trimmed_in_order_witness :
    stubUnmarshal " a ,  ,b" = none ∧ (parseInput stubUnmarshal " a ,  ,b").2.2 = none ∧
    ((∀ e ∈ (parseInput stubUnmarshal " a ,  ,b").2.1, ¬ WhitespaceOnly e) ∧
    ∃ segs : List String, ",".intercalate segs = " a ,  ,b" ∧ (∀ seg ∈ segs, ',' ∉ seg.data) ∧
      List.Forall₂ (fun e seg => IsTrimOf e seg ∧
          (e = "" ↔ ∀ c ∈ seg.data, strings.isSpace c = true))
        (parseInput stubUnmarshal " a ,  ,b").2.1 segs) :=
  ⟨by decide, by decide,
    delimited_sources_trimmed_in_order stubUnmarshal " a ,  ,b" (by decide) (by decide)⟩

/-- C8: when the decoder rejects the input, `parseInput` returns the empty platform and the
list of the segments of the input between consecutive commas, in order, each with its leading
and trailing white space removed; the list has (number of commas) + 1 elements and no element
starts or ends with white space. -/
theorem delimited_segments_trimmed (unmarshal : Unmarshal) (input : String)
    (h : unmarshal input = none) :
    (parseInput unmarshal input).1 = "" ∧
    (∃ segs : List String, ",".intercalate segs = input ∧ (∀ seg ∈ segs, ',' ∉ seg.data) ∧
      List.Forall₂ IsTrimOf (parseInput unmarshal input).2.1 segs) ∧
    (parseInput unmarshal input).2.1.length = input.data.count ',' + 1 ∧
    ∀ e ∈ (parseInput unmarshal input).2.1, NoSurroundingSpace e := by
  rw [parseInput_delimited unmarshal input h]
  refine ⟨rfl, ⟨strings.Split input ',', Split_join input ',', Split_sep_free input ',',
    forall₂_map_trim _⟩, ?_, ?_⟩
  · simp [Split_length]
  · intro e he
    simp only [List.mem_map] at he
    obtain ⟨seg, -, rfl⟩ := he
    exact TrimSpace_noSurroundingSpace seg

theorem delimited_segments_trimmed_witness :
    stubUnmarshal " a , b,c " = none ∧
      parseInput stubUnmarshal " a , b,c " = ("", ["a", "b", "c"], none) ∧
      (parseInput stubUnmarshal " a , b,c ").2.1.length = " a , b,c ".data.count ',' + 1 :=
  ⟨by decide, by decide,
    (delimited_segments_trimmed stubUnmarshal " a , b,c " (by decide)).2.2.1⟩

/-- C9: `parseInput` returns a nil error for every input: splitting on the comma always gives
at least one element, so the error branch is never taken, and the decoder branch returns nil;
hence `main` never panics at the input-validation step (a panic with an error value can only
come from the client constructor, after the call to it). -/
theorem parseInput_never_fails {α : Type} (unmarshal : Unmarshal) (input : String) :
    (parseInput unmarshal input).2.2 = none ∧
    strings.Split input ',' ≠ [] ∧
    ((strings.Split input ',').map strings.TrimSpace).length ≠ 0 ∧
    ∀ (newCli : NewCliFn α) (flags : Flags) (err : String),
      startup unmarshal newCli flags ≠ .panicked [] (.error err) := by
  refine ⟨parseInput_error_none unmarshal input, splitGo_ne_nil _ _ _, ?_, ?_⟩
  · rw [List.length_map, Split_length]; omega
  · intro newCli flags err
    have herr := parseInput_error_none unmarshal flags.content
    simp only [startup]
    rcases hp : parseInput unmarshal flags.content with ⟨platform, mirrors, e⟩
    rw [hp] at herr
    simp only at herr
    subst herr
    simp only
    split
    · simp [limitExceeded]
    · split <;> simp

/-! ## The claims about the limit check -/

theorem startup_limit_iff {α : Type} (unmarshal : Unmarshal) (newCli : NewCliFn α)
    (flags : Flags) :
    startup unmarshal newCli flags = .panicked [] limitExceeded ↔
      ((parseInput unmarshal flags.content).2.1.length : Int) > flags.maxContent := by
  have herr := parseInput_error_none unmarshal flags.content
  simp only [startup]
  rcases hp : parseInput unmarshal flags.content with ⟨platform, mirrors, e⟩
  rw [hp] at herr
  simp only at herr
  subst herr
  simp only
  by_cases hlim : (mirrors.length : Int) > flags.maxContent
  · simp [hlim]
  · simp only [hlim, if_false, iff_false]
    split <;> simp

/-- C4: whenever the list returned by `parseInput` is longer than `maxContent`, the run stops
with the limit-exceeded panic before any call to `pkg`: neither `NewCli` nor
`PullTagPushImage` is invoked, no task is launched, and no goroutine takes a step. -/
theorem limit_exceeded_aborts {α : Type} (unmarshal : Unmarshal) (newCli : NewCliFn α)
    (flags : Flags)
    (h : ((parseInput unmarshal flags.content).2.1.length : Int) > flags.maxContent) :
    startup unmarshal newCli flags = .panicked [] limitExceeded ∧
    main unmarshal newCli flags [] = some (State.halted [] limitExceeded) ∧
    ∀ sched s, main unmarshal newCli flags sched = some s →
      sched = [] ∧ s.main = .panicked limitExceeded ∧ s.log = [] ∧ s.tasks = [] ∧
        s.outputs = [] := by
  have hs := (startup_limit_iff unmarshal newCli flags).mpr h
  refine ⟨hs, by simp [main, hs], ?_⟩
  intro sched s hrun
  simp only [main, hs] at hrun
  cases sched with
  | nil =>
    simp only [Option.some.injEq] at hrun
    subst hrun
    simp [State.halted]
  | cons th rest => simp at hrun

theorem limit_exceeded_aborts_witness :
    ((parseInput stubUnmarshal (stubFlags "a,b,c,d,e,f,g,h,i,j,k,l" 11).content).2.1.length : Int)
        > (stubFlags "a,b,c,d,e,f,g,h,i,j,k,l" 11).maxContent ∧
      main stubUnmarshal stubNewCli (stubFlags "a,b,c,d,e,f,g,h,i,j,k,l" 11) [] =
        some (State.halted [] limitExceeded) :=
  ⟨by decide,
    (limit_exceeded_aborts stubUnmarshal stubNewCli (stubFlags "a,b,c,d,e,f,g,h,i,j,k,l" 11)
      (by decide)).2.1⟩

/-- C10: on the delimited path the limit check counts every entry, empty ones included: the
run is rejected with the limit-exceeded panic exactly when (number of commas) + 1 exceeds
`maxContent`, however many entries are non-empty. -/
theorem limit_counts_empty_entries {α : Type} (unmarshal : Unmarshal) (newCli : NewCliFn α)
    (flags : Flags) (h : unmarshal flags.content = none) :
    (parseInput unmarshal flags.content).2.1.length = flags.content.data.count ',' + 1 ∧
    (startup unmarshal newCli flags = .panicked [] limitExceeded ↔
      ((flags.content.data.count ',' : Int) + 1 > flags.maxContent)) ∧
    (main unmarshal newCli flags [] = some (State.halted [] limitExceeded) ↔
      ((flags.content.data.count ',' : Int) + 1 > flags.maxContent)) := by
  have hlen : (parseInput unmarshal flags.content).2.1.length =
      flags.content.data.count ',' + 1 := by
    rw [parseInput_delimited unmarshal flags.content h]
    simp [Split_length]
  have hiff := startup_limit_iff unmarshal newCli flags
  rw [hlen] at hiff
  push_cast at hiff
  refine ⟨hlen, hiff, ?_⟩
  rw [← hiff]
  constructor
  · intro hm
    simp only [main] at hm
    cases hs : startup unmarshal newCli flags with
    | panicked log v =>
      simp only [hs, Option.some.injEq, State.halted, State.mk.injEq, MainPc.panicked.injEq]
        at hm
      rw [hm.1, hm.2.2.2.2.2]
    | ready log platform mirrors cli =>
      simp [hs, exec, State.init, State.halted] at hm
  · intro hs
    simp [main, hs]

theorem limit_counts_empty_entries_witness :
    (stubUnmarshal (stubFlags "a,b,c,d,e,f,g,h,i,j,k," 11).content = none ∧
      main stubUnmarshal stubNewCli (stubFlags "a,b,c,d,e,f,g,h,i,j,k," 11) [] =
        some (State.halted [] limitExceeded)) ∧
    (stubUnmarshal (stubFlags ",,,,,,,,,,," 11).content = none ∧
      main stubUnmarshal stubNewCli (stubFlags ",,,,,,,,,,," 11) [] =
        some (State.halted [] limitExceeded)) :=
  ⟨⟨by decide,
      (limit_counts_empty_entries stubUnmarshal stubNewCli
        (stubFlags "a,b,c,d,e,f,g,h,i,j,k," 11) (by decide)).2.2.mpr (by decide)⟩,
    ⟨by decide,
      (limit_counts_empty_entries stubUnmarshal stubNewCli
        (stubFlags ",,,,,,,,,,," 11) (by decide)).2.2.mpr (by decide)⟩⟩

/-! ## The claims about the orchestration -/

theorem run_completes {α : Type} (cli : Cli α) (platform : String) (mirrors : List String)
    (log0 : List Event) (sched : List Thread) (s : State α)
    (hrun : exec cli platform sched (State.init log0 mirrors) = some s) :
    ∃ sched' s', exec cli platform (sched ++ sched') (State.init log0 mirrors) = some s' ∧
      s'.main.ended = true := by
  have hinv := inv_exec cli platform mirrors log0 sched _ s
    (inv_init cli platform mirrors log0) hrun
  obtain ⟨sched', s', h', he⟩ :=
    exists_completion cli platform mirrors log0 s.fuel s (Nat.le_refl _) hinv
  exact ⟨sched', s', exec_append cli platform sched sched' _ s s' hrun h', he⟩

theorem ended_pastWait {α : Type} (pc : MainPc α) (h : pc.ended = true) : pc.pastWait = true := by
  cases pc <;> simp [MainPc.ended, MainPc.pastWait] at h ⊢

/-- C5: in every run of the orchestration, once the main goroutine is past `wg.Wait()` every
launched task has returned, one task was launched per non-empty entry of `mirrors` (in order,
duplicates included), the calls to `PullTagPushImage` are, up to order, exactly one call per
non-empty entry, each with the given platform, and `outputs` is a permutation of the outputs of
those calls that returned no error; every run can be continued until that point. -/
theorem outputs_perm_of_successes {α : Type} (cli : Cli α) (platform : String)
    (mirrors : List String) (log0 : List Event) (sched : List Thread) (s : State α)
    (hrun : exec cli platform sched (State.init log0 mirrors) = some s) :
    (∃ sched' s', exec cli platform (sched ++ sched') (State.init log0 mirrors) = some s' ∧
      s'.main.pastWait = true) ∧
    (s.main.pastWait = true →
      (∀ t ∈ s.tasks, t.pc = .done) ∧
      s.tasks.map Task.source = mirrors.filter (fun source => source ≠ "") ∧
      (∃ calls, s.log = log0 ++ calls ∧ List.Perm calls
        ((mirrors.filter (fun source => source ≠ "")).map
          (fun source => Event.PullTagPushImage source platform))) ∧
      List.Perm s.outputs
        ((mirrors.filter (fun source => source ≠ "")).filterMap
          (fun source => (cli source platform).toOption)) ∧
      s.outputs.length =
        ((mirrors.filter (fun source => source ≠ "")).filterMap
          (fun source => (cli source platform).toOption)).length) := by
  constructor
  · obtain ⟨sched', s', h', he⟩ := run_completes cli platform mirrors log0 sched s hrun
    exact ⟨sched', s', h', ended_pastWait _ he⟩
  · intro hp
    have hinv := inv_exec cli platform mirrors log0 sched _ s
      (inv_init cli platform mirrors log0) hrun
    obtain ⟨hdone, hsrc, -, -, hcalls, houts⟩ :=
      joined_facts cli platform mirrors log0 s hinv hp
    exact ⟨hdone, hsrc, hcalls, houts, houts.length_eq⟩

theorem outputs_perm_of_successes_witness :
    (exec stubCli "linux/amd64" scheduleXY (State.init [] ["x", "y"]) = some finalXY ∧
      finalXY.main.pastWait = true ∧
      List.Perm finalXY.outputs
        ((["x", "y"].filter (fun source => source ≠ "")).filterMap
          (fun source => (stubCli source "linux/amd64").toOption))) ∧
    (exec stubCli "" scheduleABC (State.init [] ["a", "b", "c"]) = some finalABC ∧
      finalABC.main.pastWait = true ∧
      finalABC.outputs.length =
        ((["a", "b", "c"].filter (fun source => source ≠ "")).filterMap
          (fun source => (stubCli source "").toOption)).length) :=
  ⟨⟨by decide, by decide,
      ((outputs_perm_of_successes stubCli "linux/amd64" ["x", "y"] [] scheduleXY finalXY
        (by decide)).2 (by decide)).2.2.2.1⟩,
    ⟨by decide, by decide,
      ((outputs_perm_of_successes stubCli "" ["a", "b", "c"] [] scheduleABC finalABC
        (by decide)).2 (by decide)).2.2.2.2⟩⟩

/-- C6: every run of the orchestration takes at most `7 * len(mirrors) + 3` steps and can be
continued to its end; it ends in the no-successful-mirrors panic exactly when the client fails
for every non-empty entry of `mirrors` (in particular when there is no such entry), and as soon
as one non-empty entry succeeds it ends in report rendering with the non-empty `outputs`. -/
theorem no_success_panic_iff {α : Type} (cli : Cli α) (platform : String)
    (mirrors : List String) (log0 : List Event) (sched : List Thread) (s : State α)
    (hrun : exec cli platform sched (State.init log0 mirrors) = some s) :
    sched.length ≤ 7 * mirrors.length + 3 ∧
    (∃ sched' s', exec cli platform (sched ++ sched') (State.init log0 mirrors) = some s' ∧
      s'.main.ended = true) ∧
    (s.main.ended = true →
      (s.main = .panicked noSuccessfulMirrors ↔
        ∀ source ∈ mirrors, source ≠ "" → ∃ err, cli source platform = .error err) ∧
      ((∃ source ∈ mirrors, source ≠ "" ∧ ∃ output, cli source platform = .ok output) →
        s.main = .report s.outputs ∧ s.outputs ≠ [])) := by
  refine ⟨?_, run_completes cli platform mirrors log0 sched s hrun, ?_⟩
  · have := exec_fuel cli platform sched _ s hrun
    simp only [State.fuel, State.init, MainPc.fuel, List.map_nil, List.sum_nil] at this
    omega
  · intro he
    have hinv := inv_exec cli platform mirrors log0 sched _ s
      (inv_init cli platform mirrors log0) hrun
    obtain ⟨-, -, -, -, -, houts⟩ :=
      joined_facts cli platform mirrors log0 s hinv (ended_pastWait _ he)
    have hmo := hinv.main_ok
    have hempty : s.outputs = [] ↔
        ∀ source ∈ mirrors, source ≠ "" → ∃ err, cli source platform = .error err := by
      constructor
      · intro h0 source hmem hne
        rw [h0] at houts
        have hnil := List.Perm.eq_nil houts.symm
        cases hc : cli source platform with
        | error err => exact ⟨err, rfl⟩
        | ok output =>
          have : output ∈ (eligible mirrors).filterMap
              (fun source => (cli source platform).toOption) := by
            rw [List.mem_filterMap]
            exact ⟨source, by simp [eligible, hmem, hne], by simp [hc, Except.toOption]⟩
          rw [hnil] at this
          cases this
      · intro hall
        have hnil : (eligible mirrors).filterMap
            (fun source => (cli source platform).toOption) = [] := by
          rw [List.filterMap_eq_nil_iff]
          intro source hs
          simp only [eligible, List.mem_filter, decide_eq_true_eq] at hs
          obtain ⟨err, herr⟩ := hall source hs.1 hs.2
          simp [herr, Except.toOption]
        rw [hnil] at houts
        exact List.Perm.eq_nil houts
    have hmain : (s.main = .panicked noSuccessfulMirrors ∧ s.outputs = []) ∨
        (s.main = .report s.outputs ∧ s.outputs ≠ []) := by
      cases hm : s.main with
      | loop rest => simp [hm, MainPc.ended] at he
      | wait => simp [hm, MainPc.ended] at he
      | joined => simp [hm, MainPc.ended] at he
      | panicked v =>
        simp only [MainOk, hm] at hmo
        exact Or.inl ⟨by rw [hmo.2.2.1], hmo.2.2.2⟩
      | report outs =>
        simp only [MainOk, hm] at hmo
        exact Or.inr ⟨by rw [hmo.2.2.1], hmo.2.2.2⟩
    constructor
    · constructor
      · intro hm
        rcases hmain with ⟨-, h0⟩ | ⟨hr, -⟩
        · exact hempty.mp h0
        · rw [hm] at hr; cases hr
      · intro hall
        rcases hmain with ⟨hm, -⟩ | ⟨-, hne⟩
        · exact hm
        · exact absurd (hempty.mpr hall) hne
    · rintro ⟨source, hmem, hne, output, hok⟩
      rcases hmain with ⟨-, h0⟩ | hr
      · obtain ⟨err, herr⟩ := hempty.mp h0 source hmem hne
        rw [hok] at herr; cases herr
      · exact hr

theorem no_success_panic_iff_witness :
    exec stubCli "" scheduleY (State.init [] ["", "y"]) = some finalY ∧
    finalY.main.ended = true ∧
    ∀ source ∈ ["", "y"], source ≠ "" → ∃ err, stubCli source "" = .error err :=
  ⟨by decide, by decide,
    ((no_success_panic_iff stubCli "" ["", "y"] [] scheduleY finalY (by decide)).2.2
      (by decide)).1.mp (by decide)⟩

theorem stepTask_none_of_done {α : Type} (cli : Cli α) (platform : String) (s : State α)
    (i : Nat) (hdone : ∀ t ∈ s.tasks, t.pc = .done) : stepTask cli platform s i = none := by
  simp only [stepTask]
  cases ht : s.tasks[i]? with
  | none => rfl
  | some t =>
    have := hdone t (List.getElem?_mem ht)
    simp [this]

theorem critical_is_holder {α : Type} (cli : Cli α) (platform : String) (mirrors : List String)
    (log0 : List Event) (s : State α) (hinv : Inv cli platform mirrors log0 s) (j : Nat)
    (t : Task α) (ht : s.tasks[j]? = some t) (hc : t.pc.inCritical = true) : s.mu = some j := by
  obtain ⟨pre, post, hl, hlen, -⟩ := getElem?_split ht
  have hmc := hinv.mu_count
  rw [hl] at hmc
  simp only [List.countP_append, List.countP_cons, hc, if_true] at hmc
  cases hmu : s.mu with
  | none => simp [hmu] at hmc
  | some i =>
    simp only [hmu, Option.isSome_some, if_true] at hmc
    have hpre : pre.countP (fun t => t.pc.inCritical) = 0 := by omega
    have hpost : post.countP (fun t => t.pc.inCritical) = 0 := by omega
    obtain ⟨t', ht', hc'⟩ := hinv.mu_holder i hmu
    rw [hl] at ht'
    rcases Nat.lt_trichotomy i pre.length with hlt | heq | hgt
    · rw [List.getElem?_append_left hlt] at ht'
      have := List.countP_eq_zero.mp hpre t' (List.getElem?_mem ht')
      simp [hc'] at this
    · rw [heq, hlen]
    · rw [List.getElem?_append_right (by omega)] at ht'
      obtain ⟨k, hk⟩ : ∃ k, i - pre.length = k + 1 := ⟨i - pre.length - 1, by omega⟩
      rw [hk, List.getElem?_cons_succ] at ht'
      have := List.countP_eq_zero.mp hpost t' (List.getElem?_mem ht')
      simp [hc'] at this

/-- C7: in every state of every interleaving, the task holding `mu` is past its successful
client call (it is about to append or has just appended, never inside the call), and a task is
in that section only as the holder; `mu` is acquired only by a task whose call has returned
successfully; the holder's own steps are the single append and then the release; `outputs`
changes only by the append of the holder; a task whose call fails never holds `mu`; and once
the main goroutine is past `wg.Wait()` every launched task (one per non-empty entry) has
returned and takes no further step, so the read of `outputs` (the step that ends the run)
happens after all of them, and nothing changes after it. -/
theorem mutex_scoped_to_append {α : Type} (cli : Cli α) (platform : String)
    (mirrors : List String) (log0 : List Event) (sched : List Thread) (s : State α)
    (hrun : exec cli platform sched (State.init log0 mirrors) = some s) :
    (∀ i, s.mu = some i → ∃ t, s.tasks[i]? = some t ∧ t.pc ≠ .calling ∧
      ((∃ o, t.pc = .locked o) ∨ t.pc = .appended) ∧ ∃ o, cli t.source platform = .ok o) ∧
    (∀ j t, s.tasks[j]? = some t → t.pc.inCritical = true → s.mu = some j) ∧
    (∀ th s' i, step cli platform s th = some s' → s'.mu = some i → s.mu ≠ some i →
      th = .task i ∧ ∃ t o, s.tasks[i]? = some t ∧ t.pc = .succeeded o ∧
        cli t.source platform = .ok o ∧ s'.tasks[i]? = some { t with pc := .locked o }) ∧
    (∀ i s', s.mu = some i → step cli platform s (.task i) = some s' →
      (∃ t o, s.tasks[i]? = some t ∧ t.pc = .locked o ∧ s'.outputs = s.outputs ++ [o] ∧
        s'.mu = some i ∧ s'.tasks[i]? = some { t with pc := .appended }) ∨
      (∃ t, s.tasks[i]? = some t ∧ t.pc = .appended ∧ s'.outputs = s.outputs ∧
        s'.mu = none ∧ s'.tasks[i]? = some { t with pc := .unlocked })) ∧
    (∀ th s', step cli platform s th = some s' → s'.outputs ≠ s.outputs →
      ∃ i, th = .task i ∧ s.mu = some i) ∧
    (∀ i t, s.tasks[i]? = some t → (∃ err, cli t.source platform = .error err) →
      s.mu ≠ some i) ∧
    (s.main.pastWait = true →
      (∀ t ∈ s.tasks, t.pc = .done) ∧
      s.tasks.map Task.source = mirrors.filter (fun source => source ≠ "") ∧
      ∀ i, step cli platform s (.task i) = none) ∧
    (∀ th s', step cli platform s th = some s' → s'.main.ended = true →
      th = .main ∧ s.main = .joined ∧ ∀ t ∈ s.tasks, t.pc = .done) ∧
    (s.main.ended = true → ∀ th, step cli platform s th = none) := by
  have hinv := inv_exec cli platform mirrors log0 sched _ s
    (inv_init cli platform mirrors log0) hrun
  have hholder : ∀ i, s.mu = some i → ∃ t, s.tasks[i]? = some t ∧ t.pc ≠ .calling ∧
      ((∃ o, t.pc = .locked o) ∨ t.pc = .appended) ∧ ∃ o, cli t.source platform = .ok o := by
    intro i hi
    obtain ⟨t, ht, hc⟩ := hinv.mu_holder i hi
    have hokt := hinv.ok t (List.getElem?_mem ht)
    refine ⟨t, ht, ?_, ?_, ?_⟩
    · intro hcall; simp [hcall, TaskPc.inCritical] at hc
    · cases hpc : t.pc <;> simp [hpc, TaskPc.inCritical] at hc ⊢
    · cases hpc : t.pc <;> simp only [hpc, TaskPc.inCritical, TaskOk] at hc hokt
      case locked o => exact ⟨o, hokt⟩
      case appended => exact hokt
      all_goals cases hc
  have hcrit := critical_is_holder cli platform mirrors log0 s hinv
  have hdone : s.main.pastWait = true → ∀ t ∈ s.tasks, t.pc = .done := fun hp =>
    (joined_facts cli platform mirrors log0 s hinv hp).1
  have hjoin : s.main.pastWait = true →
      (∀ t ∈ s.tasks, t.pc = .done) ∧
      s.tasks.map Task.source = mirrors.filter (fun source => source ≠ "") ∧
      ∀ i, step cli platform s (.task i) = none := fun hp =>
    ⟨hdone hp, (joined_facts cli platform mirrors log0 s hinv hp).2.1,
      fun i => stepTask_none_of_done cli platform s i (hdone hp)⟩
  refine ⟨hholder, hcrit, ?_, ?_, ?_, ?_, hjoin, ?_, ?_⟩
  · -- acquisition
    intro th s' i hstep hmu' hmu
    cases th with
    | main =>
      obtain ⟨h1, -, -, -⟩ := stepMain_inv s s' hstep
      rw [h1] at hmu'
      exact absurd hmu' hmu
    | task j =>
      obtain ⟨src, pc, pc', pre, post, hget, hl, hlen, hl', -, hts⟩ :=
        stepTask_inv cli platform s s' j hstep
      have hokt := hinv.ok _ (List.getElem?_mem hget)
      rcases hts with h | h | ⟨o, h⟩ | h | ⟨o, h⟩ | ⟨o, h⟩ | h | h
      · rw [h.2.2.1] at hmu'; exact absurd hmu' hmu
      · rw [h.2.2.2.1] at hmu'; exact absurd hmu' hmu
      · rw [h.2.2.2.1] at hmu'; exact absurd hmu' hmu
      · rw [h.2.2.1] at hmu'; exact absurd hmu' hmu
      · obtain ⟨hpc, hpc', -, hm', -⟩ := h
        rw [hm'] at hmu'
        simp only [Option.some.injEq] at hmu'
        subst hmu'
        subst hpc hpc'
        refine ⟨rfl, ⟨src, .succeeded o⟩, o, hget, rfl, hokt, ?_⟩
        rw [hl', ← hlen, List.getElem?_append_right (Nat.le_refl _)]
        simp
      · rw [h.2.2.1] at hmu'; exact absurd hmu' hmu
      · rw [h.2.2.1] at hmu'; cases hmu'
      · rw [h.2.2.1] at hmu'; exact absurd hmu' hmu
  · -- the holder appends, then releases
    intro i s' hmu hstep
    obtain ⟨t, ht, -, hpc, -⟩ := hholder i hmu
    obtain ⟨src, pc, pc', pre, post, hget, hl, hlen, hl', -, hts⟩ :=
      stepTask_inv cli platform s s' i hstep
    rw [ht] at hget
    simp only [Option.some.injEq] at hget
    subst hget
    have hnew : s'.tasks[i]? = some ⟨src, pc'⟩ := by
      rw [hl', ← hlen, List.getElem?_append_right (Nat.le_refl _)]
      simp
    simp only at hpc
    rcases hpc with ⟨o, rfl⟩ | rfl
    · rcases hts with h | h | ⟨o', h⟩ | h | ⟨o', h⟩ | ⟨o', h⟩ | h | h <;>
        first
        | (exfalso; exact TaskPc.noConfusion h.1)
        | skip
      obtain ⟨hpc, rfl, hm', -, hout, -⟩ := h
      cases hpc
      exact Or.inl ⟨_, o, ht, rfl, hout, by rw [hm', hmu], hnew⟩
    · rcases hts with h | h | ⟨o', h⟩ | h | ⟨o', h⟩ | ⟨o', h⟩ | h | h <;>
        first
        | (exfalso; exact TaskPc.noConfusion h.1)
        | skip
      obtain ⟨-, rfl, hm', -, hout, -⟩ := h
      exact Or.inr ⟨_, ht, rfl, hout, hm', hnew⟩
  · -- only the holder changes outputs
    intro th s' hstep hout
    cases th with
    | main =>
      obtain ⟨-, h2, -, -⟩ := stepMain_inv s s' hstep
      exact absurd h2 hout
    | task j =>
      obtain ⟨src, pc, pc', pre, post, hget, -, -, -, -, hts⟩ :=
        stepTask_inv cli platform s s' j hstep
      refine ⟨j, rfl, ?_⟩
      rcases hts with h | h | ⟨o, h⟩ | h | ⟨o, h⟩ | ⟨o, h⟩ | h | h
      · exact absurd h.2.2.2.2.1 hout
      · exact absurd h.2.2.2.2.2.1 hout
      · exact absurd h.2.2.2.2.2.1 hout
      · exact absurd h.2.2.2.2.1 hout
      · exact absurd h.2.2.2.2.2.1 hout
      · exact hcrit j _ hget (by rw [h.1]; rfl)
      · exact absurd h.2.2.2.2.1 hout
      · exact absurd h.2.2.2.2.1 hout
  · -- a failing task never holds the mutex
    intro i t ht ⟨err, herr⟩ hmu
    obtain ⟨t', ht', -, -, o, ho⟩ := hholder i hmu
    rw [ht] at ht'
    simp only [Option.some.injEq] at ht'
    subst ht'
    rw [herr] at ho
    cases ho
  · -- the read of outputs
    intro th s' hstep he
    cases th with
    | main =>
      obtain ⟨-, -, -, hms⟩ := stepMain_inv s s' hstep
      have hj : s.main = .joined := by
        rcases hms with h | ⟨r, h⟩ | ⟨src, r, h⟩ | h | h | h
        · rw [h.2.1] at he; cases he
        · rw [h.2.1] at he; cases he
        · rw [h.2.2.1] at he; cases he
        · rw [h.2.2.1] at he; cases he
        · exact h.1
        · exact h.1
      exact ⟨rfl, hj, hdone (by rw [hj]; rfl)⟩
    | task j =>
      obtain ⟨src, pc, pc', pre, post, hget, hl, -, -, hmain, hts⟩ :=
        stepTask_inv cli platform s s' j hstep
      rw [hmain] at he
      have hd := hdone (ended_pastWait _ he) _ (List.getElem?_mem hget)
      simp only at hd
      subst hd
      rcases hts with h | h | ⟨o, h⟩ | h | ⟨o, h⟩ | ⟨o, h⟩ | h | h <;>
        exact TaskPc.noConfusion h.1
  · -- nothing happens after the end
    intro he th
    cases th with
    | main =>
      simp only [step, stepMain]
      cases hm : s.main <;> simp [hm, MainPc.ended] at he ⊢
    | task i => exact (hjoin (ended_pastWait _ he)).2.2 i

theorem mutex_scoped_to_append_witness :
    exec stubCli "linux/amd64" (scheduleXY.take 5) (State.init [] ["x", "y"]) = some midXY ∧
    (midXY.tasks[0]? = some { source := "x", pc := .calling } ∧ midXY.mu ≠ some 0) ∧
    ∀ th s', step stubCli "linux/amd64" midXY th = some s' → s'.outputs ≠ midXY.outputs →
      ∃ i, th = .task i ∧ midXY.mu = some i :=
  ⟨by decide, by decide,
    (mutex_scoped_to_append stubCli "linux/amd64" ["x", "y"] [] (scheduleXY.take 5) midXY
      (by decide)).2.2.2.2.1⟩

end DockerMirror
